import Mathlib

/-!
Shallow embedding of the json-ns reference implementation (`src/lib.rs`).

Strings are modelled as `List Char` (`Str`), JSON values as the inductive
`Value`, and `serde_json::Map` / `BTreeMap` as association lists with
replace-or-append insertion (only key lookup and replacement semantics are
observable in the code under verification).  Every definition mirrors the
corresponding Rust item; names follow the source where the environment
allows it.
-/

set_option maxHeartbeats 1000000

namespace JsonNS

/-- Strings of the embedding: Rust `&str` / `String` as lists of characters. -/
abbrev Str := List Char

/-- Rust `is_keyword` from `lib.rs`: whether the input starts with `'@'`. -/
def is_keyword (input : Str) : Bool :=
  match input with
  | c :: _ => c == '@'
  | [] => false

/-- Rust `is_absolute_iri` from `lib.rs`: contains `':'` and does not start with `'@'`. -/
def is_absolute_iri (input : Str) : Bool :=
  input.contains ':' && !(is_keyword input)

/-- Rust `is_curie_prefix` from `lib.rs`: non-empty, without `':'`, not starting with `'@'`. -/
def is_curie_prefix (input : Str) : Bool :=
  !input.isEmpty && !input.contains ':' && !(is_keyword input)

/-- Lookup in an association list, modelling `BTreeMap::get` / `Map::get`. -/
def alGet {α : Type} (k : Str) : List (Str × α) → Option α
  | [] => none
  | (k2, v) :: rest => if k2 = k then some v else alGet k rest

/-- Insert into an association list, modelling `BTreeMap::insert` /
`Map::insert`: replaces the value at an existing key, otherwise appends. -/
def alInsert {α : Type} (m : List (Str × α)) (k : Str) (v : α) : List (Str × α) :=
  match m with
  | [] => [(k, v)]
  | (k2, v2) :: rest => if k2 = k then (k, v) :: rest else (k2, v2) :: alInsert rest k v

/-- Remove a key from an association list, modelling `BTreeMap::remove`. -/
def alErase {α : Type} (m : List (Str × α)) (k : Str) : List (Str × α) :=
  m.filter (fun p => p.1 ≠ k)

/-- JSON values (`serde_json::Value`).  The code never inspects the numeric
payload, so numbers carry an opaque `Int`. -/
inductive Value : Type where
  | null : Value
  | bool (b : Bool) : Value
  | num (n : Int) : Value
  | str (s : Str) : Value
  | arr (elems : List Value) : Value
  | obj (entries : List (Str × Value)) : Value

/-- Rust `Value::as_str`. -/
def Value.as_str : Value → Option Str
  | .str s => some s
  | _ => none

/-- Rust `Value::is_string`. -/
def Value.is_string : Value → Bool
  | .str _ => true
  | _ => false

/-- Rust `Value::is_null`. -/
def Value.is_null : Value → Bool
  | .null => true
  | _ => false

/-- Rust `Value::is_object`. -/
def Value.is_object : Value → Bool
  | .obj _ => true
  | _ => false

/-- The `OneOrMany` iterator of `lib.rs` as the sequence of values it yields:
an array yields its elements in order, any other value yields itself once. -/
def oneOrMany : Value → List Value
  | .arr elems => elems
  | v => [v]

/-- The `Context` struct of `lib.rs`. -/
structure Context : Type where
  ns : Option Str
  lang : Str
  prefixes : List (Str × Str)
  aliases : List (Str × Str)
  container : List (Str × Str)
deriving DecidableEq

/-- Rust `Context::default()`: the all-empty context. -/
def Context.default : Context :=
  ⟨none, [], [], [], []⟩

/-- The alias lookup of the non-keyword object branch of
`Context::merge_object`: `object.get("@id").and_then(Value::as_str)
.filter(|string| !is_keyword(string))`, inserting into `aliases` when it
yields a string. -/
def Context.merge_alias (c : Context) (key : Str) (object : List (Str × Value)) : Context :=
  match alGet "@id".toList object with
  | some (.str a) =>
    if !(is_keyword a) then { c with aliases := alInsert c.aliases key a } else c
  | _ => c

/-- The container-mapping lookup of the non-keyword object branch of
`Context::merge_object`: `object.get("@container").and_then(Value::as_str)`,
inserting into `container` when it yields a string. -/
def Context.merge_container (c : Context) (key : Str) (object : List (Str × Value)) :
    Context :=
  match alGet "@container".toList object with
  | some (.str cont) => { c with container := alInsert c.container key cont }
  | _ => c

/-- One iteration of the `for (key, value) in object` loop of
`Context::merge_object`.  The `Option::filter` chains of the Rust source
(`value.as_str().filter(is_absolute_iri)` for `@vocab`,
`.and_then(Value::as_str).filter(|s| !is_keyword(s))` for `@id`) are
inlined as matches on the value's shape. -/
def Context.merge_entry (c : Context) (key : Str) (value : Value) : Context :=
  if is_keyword key then
    if key = "@vocab".toList then
      match value with
      | .str ns => if is_absolute_iri ns then { c with ns := some ns } else c
      | .null => { c with ns := none }
      | _ => c
    else if key = "@language".toList then
      match value with
      | .str lang => { c with lang := lang }
      | .null => { c with lang := [] }
      | _ => c
    else c
  else
    match value with
    | .str string =>
      if is_curie_prefix key && is_absolute_iri string then
        { c with prefixes := alInsert c.prefixes key string }
      else c
    | .obj object => (c.merge_alias key object).merge_container key object
    | .null =>
      { c with
          prefixes := alErase c.prefixes key,
          aliases := alErase c.aliases key,
          container := alErase c.container key }
    | _ => c

/-- Rust `Context::merge_object`: fold the entry merge over the declaration. -/
def Context.merge_object (c : Context) (object : List (Str × Value)) : Context :=
  object.foldl (fun c kv => c.merge_entry kv.1 kv.2) c

/-- Rust `Context::merge_value`: iterate the `OneOrMany` view of the value; `null`
resets to the default context, objects are merged, anything else is ignored. -/
def Context.merge_value (c : Context) (value : Value) : Context :=
  (oneOrMany value).foldl
    (fun c v =>
      match v with
      | .null => Context.default
      | .obj object => c.merge_object object
      | _ => c)
    c

/-- Rust `name.splitn(2, ':')`: the part before the first `':'`, and the
remainder after it when a `':'` exists. -/
def splitFirst : Str → Str × Option Str
  | [] => ([], none)
  | c :: rest =>
    if c = ':' then ([], some rest)
    else
      let r := splitFirst rest
      (c :: r.1, r.2)

/-- Rust `Context::expand_name`. -/
def Context.expand_name (c : Context) (name : Str) : Option Str :=
  if is_keyword name then none
  else
    match splitFirst name with
    | (pfx, some suffix) =>
      match alGet pfx c.prefixes with
      | some base => some (base ++ suffix)
      | none => some name
    | (_, none) =>
      match c.ns with
      | some base => some (base ++ name)
      | none => none

/-- The `TargetContext` struct of `lib.rs`. -/
structure TargetContext : Type where
  rules : List (Str × Str)
deriving DecidableEq

/-- The rule-scanning loop of `TargetContext::compact_iri`. -/
def compactGo (iri : Str) : List (Str × Str) → Str
  | [] => iri
  | (pfx, base) :: rest =>
    if base <+: iri then
      if pfx = [] then iri.drop base.length
      else pfx ++ ':' :: iri.drop base.length
    else compactGo iri rest

/-- Rust `TargetContext::compact_iri`: first rule whose base is a prefix of the
IRI wins; empty-prefix rules strip the base, others produce a CURIE; no
match returns the IRI unchanged. -/
def TargetContext.compact_iri (t : TargetContext) (iri : Str) : Str :=
  compactGo iri t.rules

/-- The `Processor` struct of `lib.rs`. -/
structure Processor : Type where
  context : Context
  target : TargetContext
deriving DecidableEq

mutual

/-- Rust `Processor::process_value_inner`. -/
def process_value_inner (p : Processor) (value : Value) (context : Context) : Value :=
  match value with
  | .arr array => .arr (process_array p array context)
  | .obj object => .obj (process_object_inner p object context)
  | v => v
termination_by (2 * sizeOf value, 1)

/-- The `array.iter().map(...)` of `process_value_inner`, elementwise. -/
def process_array (p : Processor) (array : List Value) (context : Context) : List Value :=
  match array with
  | [] => []
  | v :: rest => process_value_inner p v context :: process_array p rest context
termination_by (2 * sizeOf array, 0)

/-- Rust `Processor::process_object_inner`: extend the active context with the
local `@context` declaration if present, then process the entries. -/
def process_object_inner (p : Processor) (object : List (Str × Value)) (context : Context) :
    List (Str × Value) :=
  let context :=
    match alGet "@context".toList object with
    | some v => context.merge_value v
    | none => context
  process_entries p object context []
termination_by (2 * sizeOf object + 1, 0)

/-- The `for (key, value) in object` loop of `process_object_inner`,
accumulating the `result` map. -/
def process_entries (p : Processor) (entries : List (Str × Value)) (context : Context)
    (result : List (Str × Value)) : List (Str × Value) :=
  match entries with
  | [] => result
  | (key, value) :: rest =>
    if is_keyword key then
      if key = "@id".toList then
        match (value.as_str).filter (fun s => is_absolute_iri s) with
        | some iri => process_entries p rest context (alInsert result key (.str iri))
        | none => process_entries p rest context result
      else if key = "@type".toList then
        let tys := (((oneOrMany value).filterMap Value.as_str).filterMap
          (fun string => context.expand_name string)).map
            (fun iri => p.target.compact_iri iri)
        if tys.isEmpty then process_entries p rest context result
        else process_entries p rest context
          (alInsert result key (.arr (tys.map Value.str)))
      else process_entries p rest context result
    else
      let resolved := (alGet key context.aliases).getD key
      match context.expand_name resolved with
      | none => process_entries p rest context result
      | some iri =>
        let outKey := p.target.compact_iri iri
        if alGet key context.container = some "@language".toList then
          match value with
          | .str s =>
            process_entries p rest context
              (alInsert result outKey (.obj [(context.lang, .str s)]))
          | .obj object =>
            process_entries p rest context
              (alInsert result outKey (.obj (object.filter (fun kv => kv.2.is_string))))
          | _ => process_entries p rest context result
        else
          process_entries p rest context
            (alInsert result outKey (process_value_inner p value context))
termination_by (2 * sizeOf entries, 0)

end

/-- Rust `Processor::process_value`: entry point using the processor's baseline
source context. -/
def Processor.process_value (p : Processor) (value : Value) : Value :=
  process_value_inner p value p.context

/-- Rust `Processor::process_object`: entry point using the processor's baseline
source context. -/
def Processor.process_object (p : Processor) (object : List (Str × Value)) :
    List (Str × Value) :=
  process_object_inner p object p.context

/-! ## Helper lemmas -/

theorem is_keyword_iff (n : Str) : is_keyword n = true ↔ n.head? = some '@' := by
  cases n <;> simp [is_keyword]

theorem is_keyword_eq_false (n : Str) (h : n.head? ≠ some '@') : is_keyword n = false := by
  cases hb : is_keyword n
  · rfl
  · exact absurd ((is_keyword_iff n).mp hb) h

theorem splitFirst_of_not_mem (n : Str) (h : ':' ∉ n) : splitFirst n = (n, none) := by
  induction n with
  | nil => rfl
  | cons c rest ih =>
    simp only [List.mem_cons, not_or] at h
    simp [splitFirst, Ne.symm h.1, ih h.2]

theorem splitFirst_append (p s : Str) (h : ':' ∉ p) :
    splitFirst (p ++ ':' :: s) = (p, some s) := by
  induction p with
  | nil => simp [splitFirst]
  | cons c rest ih =>
    simp only [List.mem_cons, not_or] at h
    simp [splitFirst, Ne.symm h.1, ih h.2]

theorem compactGo_of_no_match (iri : Str) (rules : List (Str × Str))
    (h : ∀ r ∈ rules, ¬ r.2 <+: iri) : compactGo iri rules = iri := by
  induction rules with
  | nil => rfl
  | cons r rest ih =>
    obtain ⟨a, b⟩ := r
    have h1 : ¬ b <+: iri := h (a, b) (by simp)
    rw [compactGo, if_neg h1]
    exact ih fun r hr => h r (List.mem_cons_of_mem _ hr)

theorem compactGo_append (iri : Str) (pre : List (Str × Str)) (pfx base : Str)
    (post : List (Str × Str)) (hpre : ∀ r ∈ pre, ¬ r.2 <+: iri) (hbase : base <+: iri) :
    compactGo iri (pre ++ (pfx, base) :: post) =
      if pfx = [] then iri.drop base.length else pfx ++ ':' :: iri.drop base.length := by
  induction pre with
  | nil => rw [List.nil_append, compactGo, if_pos hbase]
  | cons r rest ih =>
    obtain ⟨a, b⟩ := r
    have h1 : ¬ b <+: iri := hpre (a, b) (by simp)
    rw [List.cons_append, compactGo, if_neg h1]
    exact ih fun r hr => hpre r (List.mem_cons_of_mem _ hr)

/-! ## Claims -/

/-- C1: the function `expand_name` returns nothing on names starting with `'@'`; on a name
with a first-colon decomposition `pfx ++ ':' :: suffix`, it returns the
registered base concatenated with the suffix when `pfx` is a registered
CURIE prefix and the name unchanged otherwise; on a colon-free name it
returns the default namespace concatenated with the name when the default
namespace is set, and nothing when it is unset. -/
theorem C1_expand_name_spec (c : Context) (name : Str) :
    (name.head? = some '@' → c.expand_name name = none) ∧
    (name.head? ≠ some '@' →
      (∀ pfx suffix, name = pfx ++ ':' :: suffix → ':' ∉ pfx →
        (∀ base, alGet pfx c.prefixes = some base →
          c.expand_name name = some (base ++ suffix)) ∧
        (alGet pfx c.prefixes = none → c.expand_name name = some name)) ∧
      (':' ∉ name →
        (∀ base, c.ns = some base → c.expand_name name = some (base ++ name)) ∧
        (c.ns = none → c.expand_name name = none))) := by
  constructor
  · intro h
    have hk : is_keyword name = true := (is_keyword_iff name).mpr h
    simp [Context.expand_name, hk]
  · intro hnk
    have hk : is_keyword name = false := is_keyword_eq_false name hnk
    constructor
    · intro pfx suffix heq hcol
      constructor
      · intro base hbase
        rw [Context.expand_name, if_neg (by simp [hk]), heq,
          splitFirst_append pfx suffix hcol]
        simp [hbase]
      · intro hnone
        rw [Context.expand_name, if_neg (by simp [hk]), heq,
          splitFirst_append pfx suffix hcol]
        simp [hnone]
    · intro hcol
      constructor
      · intro base hbase
        rw [Context.expand_name, if_neg (by simp [hk]),
          splitFirst_of_not_mem name hcol]
        simp [hbase]
      · intro hnone
        rw [Context.expand_name, if_neg (by simp [hk]),
          splitFirst_of_not_mem name hcol]
        simp [hnone]

/-- Concrete context used by the C1 witness. -/
def c1ctx : Context :=
  ⟨some "http://ns/".toList, [], [("foo".toList, "http://e/".toList)], [], []⟩

/-- Witness for C1 at the CURIE-expansion branch. -/
theorem C1_witness : c1ctx.expand_name "foo:x".toList = some "http://e/x".toList := by
  have h := (((C1_expand_name_spec c1ctx "foo:x".toList).2 (by decide)).1
    "foo".toList "x".toList (by decide) (by decide)).1 "http://e/".toList (by decide)
  exact h.trans (by decide)

/-- C2: the function `compact_iri` scans the rules in declaration order; the first rule
whose base is a prefix of the identifier wins, yielding the stripped
remainder for an empty rule prefix and `pfx ++ ":" ++ remainder` otherwise;
when no rule's base is a prefix the identifier is returned unchanged. -/
theorem C2_compact_iri_spec (t : TargetContext) (iri : Str) :
    ((∀ r ∈ t.rules, ¬ r.2 <+: iri) → t.compact_iri iri = iri) ∧
    (∀ pre pfx base post, t.rules = pre ++ (pfx, base) :: post →
      (∀ r ∈ pre, ¬ r.2 <+: iri) → base <+: iri →
      t.compact_iri iri =
        if pfx = [] then iri.drop base.length
        else pfx ++ ':' :: iri.drop base.length) := by
  constructor
  · intro h
    exact compactGo_of_no_match iri t.rules h
  · intro pre pfx base post hrules hpre hbase
    rw [TargetContext.compact_iri, hrules]
    exact compactGo_append iri pre pfx base post hpre hbase

/-- Concrete target context used by the C2 witness. -/
def c2tgt : TargetContext :=
  ⟨[("q".toList, "urn:q:".toList), ("p".toList, "http://e/".toList)]⟩

/-- Witness for C2: the second rule matches after the first fails. -/
theorem C2_witness : c2tgt.compact_iri "http://e/x".toList = "p:x".toList := by
  have h := (C2_compact_iri_spec c2tgt "http://e/x".toList).2
    [("q".toList, "urn:q:".toList)] "p".toList "http://e/".toList []
    (by decide) (by decide) (by decide)
  exact h.trans (by decide)

theorem oneOrMany_eq (v : Value) :
    oneOrMany v = match v with | .arr elems => elems | v => [v] := by
  cases v <;> rfl

/-- C3: for a non-keyword property the name to expand is the alias recorded
under the literal key when one exists (otherwise the key itself); failed
expansion drops the property and its value; successful expansion emits the
property under the compaction of the expanded identifier (unless the
`@language` container machinery drops an ill-typed value). -/
theorem C3_property_key (p : Processor) (context : Context) (key : Str) (value : Value)
    (rest result : List (Str × Value)) (hk : key.head? ≠ some '@') :
    (context.expand_name ((alGet key context.aliases).getD key) = none →
      process_entries p ((key, value) :: rest) context result =
        process_entries p rest context result) ∧
    (∀ iri, context.expand_name ((alGet key context.aliases).getD key) = some iri →
      (alGet key context.container = some "@language".toList ∧
          value.is_string = false ∧ value.is_object = false ∧
          process_entries p ((key, value) :: rest) context result =
            process_entries p rest context result) ∨
      (∃ w, process_entries p ((key, value) :: rest) context result =
          process_entries p rest context (alInsert result (p.target.compact_iri iri) w))) := by
  have hkw : is_keyword key = false := is_keyword_eq_false key hk
  constructor
  · intro hnone
    rw [process_entries, if_neg (by simp [hkw])]
    simp only [hnone]
  · intro iri hsome
    by_cases hc : alGet key context.container = some "@language".toList
    · cases value with
      | str s =>
        refine Or.inr ⟨.obj [(context.lang, .str s)], ?_⟩
        rw [process_entries, if_neg (by simp [hkw])]
        simp only [hsome]
        rw [if_pos hc]
      | obj entries =>
        refine Or.inr ⟨.obj (entries.filter (fun kv => kv.2.is_string)), ?_⟩
        rw [process_entries, if_neg (by simp [hkw])]
        simp only [hsome]
        rw [if_pos hc]
      | null =>
        refine Or.inl ⟨hc, rfl, rfl, ?_⟩
        rw [process_entries, if_neg (by simp [hkw])]
        simp only [hsome]
        rw [if_pos hc]
      | bool b =>
        refine Or.inl ⟨hc, rfl, rfl, ?_⟩
        rw [process_entries, if_neg (by simp [hkw])]
        simp only [hsome]
        rw [if_pos hc]
      | num n =>
        refine Or.inl ⟨hc, rfl, rfl, ?_⟩
        rw [process_entries, if_neg (by simp [hkw])]
        simp only [hsome]
        rw [if_pos hc]
      | arr elems =>
        refine Or.inl ⟨hc, rfl, rfl, ?_⟩
        rw [process_entries, if_neg (by simp [hkw])]
        simp only [hsome]
        rw [if_pos hc]
    · refine Or.inr ⟨process_value_inner p value context, ?_⟩
      rw [process_entries, if_neg (by simp [hkw])]
      simp only [hsome]
      rw [if_neg hc]

/-- Processor used by the C3 witness: empty source and target contexts. -/
def c3proc : Processor := ⟨Context.default, ⟨[]⟩⟩

/-- Witness for C3: a bare name with no default namespace fails expansion and
the property is dropped. -/
theorem C3_witness :
    process_entries c3proc [("x".toList, .num 1)] Context.default [] = [] := by
  have h := (C3_property_key c3proc Context.default "x".toList (.num 1) [] []
    (by decide)).1 (by decide)
  rw [h, process_entries]

/-- C4: under a `@language` container mapping recorded for the literal key, a
string value becomes a single-entry object keyed by the default language, an
object value is filtered to its string-valued entries, and any other value
kind drops the whole property. -/
theorem C4_language_container (p : Processor) (context : Context) (key : Str) (value : Value)
    (rest result : List (Str × Value)) (iri : Str)
    (hk : key.head? ≠ some '@')
    (hc : alGet key context.container = some "@language".toList)
    (hx : context.expand_name ((alGet key context.aliases).getD key) = some iri) :
    (∀ s, value = .str s →
      process_entries p ((key, value) :: rest) context result =
        process_entries p rest context
          (alInsert result (p.target.compact_iri iri) (.obj [(context.lang, .str s)]))) ∧
    (∀ entries, value = .obj entries →
      process_entries p ((key, value) :: rest) context result =
        process_entries p rest context
          (alInsert result (p.target.compact_iri iri)
            (.obj (entries.filter (fun kv => kv.2.is_string))))) ∧
    (value.is_string = false → value.is_object = false →
      process_entries p ((key, value) :: rest) context result =
        process_entries p rest context result) := by
  have hkw : is_keyword key = false := is_keyword_eq_false key hk
  refine ⟨?_, ?_, ?_⟩
  · intro s hs
    subst hs
    rw [process_entries]
    simp [hkw, hx, hc]
  · intro entries ho
    subst ho
    rw [process_entries]
    simp [hkw, hx, hc]
  · intro hns hno
    rw [process_entries]
    cases value <;> simp_all [hkw, hx, hc, Value.is_string, Value.is_object]

/-- Context used by the C4 witness: default language `en`, container mapping
`@language` on `greeting`, default namespace `http://e/`. -/
def c4ctx : Context :=
  ⟨some "http://e/".toList, "en".toList, [], [],
    [("greeting".toList, "@language".toList)]⟩

/-- Processor used by the C4 witness. -/
def c4proc : Processor := ⟨c4ctx, ⟨[]⟩⟩

/-- Witness for C4: a plain string under a `@language` container becomes a
single-entry language map under the default language. -/
theorem C4_witness :
    process_entries c4proc [("greeting".toList, .str "hi".toList)] c4ctx [] =
      [("http://e/greeting".toList, .obj [("en".toList, .str "hi".toList)])] := by
  have h := (C4_language_container c4proc c4ctx "greeting".toList (.str "hi".toList)
    [] [] "http://e/greeting".toList (by decide) (by decide) (by decide)).1
    "hi".toList rfl
  rw [h, process_entries]
  rfl

/-- C5: the `@type` value is treated as a one-or-many sequence; string
elements whose expansion succeeds contribute their expanded-then-compacted
form, other elements are dropped; a non-empty result is emitted as an array
under `@type`, an empty result omits the `@type` key. -/
theorem C5_type_property (p : Processor) (context : Context) (value : Value)
    (rest result : List (Str × Value)) (tys : List Str)
    (htys : tys = (match value with
        | .arr elems => elems
        | v => [v]).filterMap
          (fun v : Value => (Value.as_str v).bind
            (fun s => (context.expand_name s).map
              (fun iri => p.target.compact_iri iri)))) :
    (tys ≠ [] →
      process_entries p (("@type".toList, value) :: rest) context result =
        process_entries p rest context
          (alInsert result "@type".toList (.arr (tys.map Value.str)))) ∧
    (tys = [] →
      process_entries p (("@type".toList, value) :: rest) context result =
        process_entries p rest context result) := by
  have himpl : (((oneOrMany value).filterMap Value.as_str).filterMap
      (fun string => context.expand_name string)).map (fun iri => p.target.compact_iri iri)
      = tys := by
    rw [htys, oneOrMany_eq, List.map_filterMap, List.filterMap_filterMap]
  rw [process_entries,
    if_pos (by decide : is_keyword "@type".toList = true),
    if_neg (by decide : ¬("@type".toList = "@id".toList)),
    if_pos (rfl : "@type".toList = "@type".toList)]
  simp only [himpl]
  constructor
  · intro hne
    have hemp : tys.isEmpty = false := by
      cases tys with
      | nil => exact absurd rfl hne
      | cons a l => rfl
    rw [if_neg (by simp [hemp])]
  · intro hempty
    rw [hempty]
    simp

/-- Context used by the C5 witness: a single CURIE prefix `foo`. -/
def c5ctx : Context :=
  ⟨none, [], [("foo".toList, "http://e/".toList)], [], []⟩

/-- Processor used by the C5 witness. -/
def c5proc : Processor := ⟨c5ctx, ⟨[]⟩⟩

/-- Witness for C5: a single string scalar `@type` becomes a one-element
array of its expanded form. -/
theorem C5_witness :
    process_entries c5proc [("@type".toList, .str "foo:T".toList)] c5ctx [] =
      [("@type".toList, .arr [.str "http://e/T".toList])] := by
  have h := (C5_type_property c5proc c5ctx (.str "foo:T".toList) [] []
    ["http://e/T".toList] (by decide)).1 (by decide)
  rw [h, process_entries]
  rfl

theorem process_array_eq_map (p : Processor) (array : List Value) (context : Context) :
    process_array p array context = array.map (fun v => process_value_inner p v context) := by
  induction array with
  | nil => rw [process_array]; rfl
  | cons v rest ih => rw [process_array, ih]; rfl

/-- C6: contexts are immutable values in the embedding, so processing can
only derive new contexts, never change the caller's: every element of an
array is processed under the identical incoming context, and an object node
processes its entries under the incoming context extended — as a separate
derived value — by its local `@context` declaration when one is present.
The entry points pass the processor's baseline context unchanged. -/
theorem C6_context_scoping (p : Processor) (context : Context) (array : List Value)
    (object : List (Str × Value)) (v₂ : Value) :
    (process_value_inner p (.arr array) context =
      .arr (array.map (fun v => process_value_inner p v context))) ∧
    (process_object_inner p object context =
      process_entries p object
        (match alGet "@context".toList object with
          | some v => context.merge_value v
          | none => context) []) ∧
    (p.process_value v₂ = process_value_inner p v₂ p.context) := by
  refine ⟨?_, ?_, rfl⟩
  · rw [process_value_inner, process_array_eq_map]
  · cases halg : alGet "@context".toList object with
    | none => rw [process_object_inner]; simp only [halg]
    | some v => rw [process_object_inner]; simp only [halg]

/-- C7: the function `process_value` is a total function of its inputs: the embedding
defines the whole walker (including the entry loop and the recursive
descent) as terminating Lean functions whose result types carry no error
case, the one `unwrap` of the Rust source is modelled by `splitFirst`,
which always yields a first component, and context merging of arbitrary
(also malformed) declarations likewise always produces a context. -/
theorem C7_total (p : Processor) (value : Value) (context : Context) (c : Context)
    (decl : Value) (object : List (Str × Value)) :
    (∃ out : Value, p.process_value value = out) ∧
    (∃ out : Value, process_value_inner p value context = out) ∧
    (∃ out : List (Str × Value), process_object_inner p object context = out) ∧
    (∃ c2 : Context, c.merge_value decl = c2) :=
  ⟨⟨_, rfl⟩, ⟨_, rfl⟩, ⟨_, rfl⟩, ⟨_, rfl⟩⟩

/-- Claim-side invariant (C8): every prefix key is a valid CURIE-prefix
token (non-empty, colon-free, not starting with `'@'`), every prefix value
is an absolute IRI (contains a colon, does not start with `'@'`), and every
alias value does not start with `'@'`. -/
def ContextInv (c : Context) : Prop :=
  (∀ kv ∈ c.prefixes, kv.1 ≠ [] ∧ ':' ∉ kv.1 ∧ kv.1.head? ≠ some '@' ∧
    ':' ∈ kv.2 ∧ kv.2.head? ≠ some '@') ∧
  (∀ kv ∈ c.aliases, kv.2.head? ≠ some '@')

/-- Contexts reachable from the default context by merge operations. -/
inductive Reachable : Context → Prop where
  | base : Reachable Context.default
  | step_value (c : Context) (v : Value) : Reachable c → Reachable (c.merge_value v)
  | step_object (c : Context) (o : List (Str × Value)) :
      Reachable c → Reachable (c.merge_object o)

theorem mem_alInsert {α : Type} (m : List (Str × α)) (k : Str) (v : α) (x : Str × α)
    (hx : x ∈ alInsert m k v) : x = (k, v) ∨ x ∈ m := by
  induction m with
  | nil =>
    simp only [alInsert, List.mem_singleton] at hx
    exact Or.inl hx
  | cons kv rest ih =>
    obtain ⟨k2, v2⟩ := kv
    rw [alInsert] at hx
    by_cases hk : k2 = k
    · rw [if_pos hk] at hx
      rcases List.mem_cons.mp hx with h | h
      · exact Or.inl h
      · exact Or.inr (List.mem_cons_of_mem _ h)
    · rw [if_neg hk] at hx
      rcases List.mem_cons.mp hx with h | h
      · exact Or.inr (by simp [h])
      · rcases ih h with h2 | h2
        · exact Or.inl h2
        · exact Or.inr (List.mem_cons_of_mem _ h2)

theorem mem_alErase {α : Type} (m : List (Str × α)) (k : Str) (x : Str × α)
    (hx : x ∈ alErase m k) : x ∈ m :=
  List.mem_of_mem_filter hx

theorem str_contains_iff_mem (l : Str) (a : Char) : l.contains a = true ↔ a ∈ l := by
  simp [List.contains]

theorem of_is_curie_prefix_eq_true (n : Str) (h : is_curie_prefix n = true) :
    n ≠ [] ∧ ':' ∉ n ∧ n.head? ≠ some '@' := by
  rw [ is_curie_prefix] at h
  simp only [Bool.and_eq_true, Bool.not_eq_true'] at h
  refine ⟨?_, ?_, ?_⟩
  · intro hnil
    rw [hnil] at h
    exact absurd h.1.1 (by decide)
  · intro hmem
    rw [(str_contains_iff_mem n ':').mpr hmem] at h
    exact absurd h.1.2 (by decide)
  · intro hat
    rw [(is_keyword_iff n).mpr hat] at h
    exact absurd h.2 (by decide)

theorem of_is_absolute_iri_eq_true (n : Str) (h : is_absolute_iri n = true) :
    ':' ∈ n ∧ n.head? ≠ some '@' := by
  rw [is_absolute_iri] at h
  simp only [Bool.and_eq_true, Bool.not_eq_true'] at h
  refine ⟨?_, ?_⟩
  · exact (str_contains_iff_mem n ':').mp h.1
  · intro hat
    rw [(is_keyword_iff n).mpr hat] at h
    exact absurd h.2 (by decide)

theorem contextInv_default : ContextInv Context.default := by
  constructor <;> simp [Context.default]

theorem contextInv_merge_alias (c : Context) (key : Str) (object : List (Str × Value))
    (h : ContextInv c) : ContextInv (c.merge_alias key object) := by
  rw [Context.merge_alias]
  split
  · next a heq =>
    by_cases hka : (!(is_keyword a)) = true
    · rw [if_pos hka]
      refine ⟨h.1, ?_⟩
      intro kv hkv
      rcases mem_alInsert c.aliases key a kv hkv with heq2 | hmem
      · rw [heq2]
        intro hat
        rw [(is_keyword_iff a).mpr hat] at hka
        exact absurd hka (by decide)
      · exact h.2 kv hmem
    · rw [if_neg hka]; exact h
  · exact h

theorem contextInv_merge_container (c : Context) (key : Str) (object : List (Str × Value))
    (h : ContextInv c) : ContextInv (c.merge_container key object) := by
  rw [Context.merge_container]
  split
  · exact h
  · exact h

theorem contextInv_merge_entry (c : Context) (key : Str) (value : Value)
    (h : ContextInv c) : ContextInv (c.merge_entry key value) := by
  rw [Context.merge_entry.eq_def]
  by_cases hkw : is_keyword key = true
  · rw [if_pos hkw]
    by_cases hv : key = "@vocab".toList
    · rw [if_pos hv]
      split
      · next ns =>
        by_cases ha : is_absolute_iri ns = true
        · rw [if_pos ha]; exact h
        · rw [if_neg ha]; exact h
      · exact h
      · exact h
    · rw [if_neg hv]
      by_cases hl : key = "@language".toList
      · rw [if_pos hl]
        split
        · exact h
        · exact h
        · exact h
      · rw [if_neg hl]; exact h
  · rw [if_neg hkw]
    split
    · next string =>
      by_cases hg : ( is_curie_prefix key && is_absolute_iri string) = true
      · rw [if_pos hg]
        rw [Bool.and_eq_true] at hg
        have hkey := of_is_curie_prefix_eq_true key hg.1
        have hstr := of_is_absolute_iri_eq_true string hg.2
        refine ⟨?_, h.2⟩
        intro kv hkv
        rcases mem_alInsert c.prefixes key string kv hkv with heq | hmem
        · rw [heq]
          exact ⟨hkey.1, hkey.2.1, hkey.2.2, hstr.1, hstr.2⟩
        · exact h.1 kv hmem
      · rw [if_neg hg]; exact h
    · next object =>
      exact contextInv_merge_container _ key object
        (contextInv_merge_alias c key object h)
    · refine ⟨?_, ?_⟩
      · intro kv hkv
        exact h.1 kv (mem_alErase c.prefixes key kv hkv)
      · intro kv hkv
        exact h.2 kv (mem_alErase c.aliases key kv hkv)
    · exact h

theorem contextInv_foldl_entries (o : List (Str × Value)) (c : Context) (h : ContextInv c) :
    ContextInv (o.foldl (fun c kv => c.merge_entry kv.1 kv.2) c) := by
  induction o generalizing c with
  | nil => exact h
  | cons kv rest ih =>
    rw [List.foldl_cons]
    exact ih _ (contextInv_merge_entry c kv.1 kv.2 h)

theorem contextInv_merge_object (c : Context) (o : List (Str × Value)) (h : ContextInv c) :
    ContextInv (c.merge_object o) :=
  contextInv_foldl_entries o c h

theorem contextInv_foldl_values (vs : List Value) (c : Context) (h : ContextInv c) :
    ContextInv (vs.foldl (fun c v => match v with
      | .null => Context.default
      | .obj object => c.merge_object object
      | _ => c) c) := by
  induction vs generalizing c with
  | nil => exact h
  | cons v rest ih =>
    rw [List.foldl_cons]
    refine ih _ ?_
    cases v with
    | null => exact contextInv_default
    | obj o2 => exact contextInv_merge_object c o2 h
    | bool b => exact h
    | num n => exact h
    | str s => exact h
    | arr elems => exact h

theorem contextInv_merge_value (c : Context) (v : Value) (h : ContextInv c) :
    ContextInv (c.merge_value v) :=
  contextInv_foldl_values (oneOrMany v) c h

theorem reachable_inv (c : Context) (h : Reachable c) : ContextInv c := by
  induction h with
  | base => exact contextInv_default
  | step_value c v hr ih => exact contextInv_merge_value c v ih
  | step_object c o hr ih => exact contextInv_merge_object c o ih

/-- C8: every context reachable from the default context by merge
operations satisfies the table invariant — prefix keys are valid
CURIE-prefix tokens, prefix values are absolute IRIs, alias values are not
keywords — and each single merge operation preserves that invariant. -/
theorem C8_merge_invariant (c : Context) (v : Value) (o : List (Str × Value)) :
    (Reachable c → ContextInv c) ∧
    (ContextInv c → ContextInv (c.merge_value v)) ∧
    (ContextInv c → ContextInv (c.merge_object o)) :=
  ⟨reachable_inv c, contextInv_merge_value c v, contextInv_merge_object c o⟩

/-- Witness for C8: merging a prefix declaration into the default context
preserves the invariant. -/
theorem C8_witness :
    ContextInv (Context.default.merge_value
      (.obj [("foo".toList, .str "http://e/".toList)])) :=
  (C8_merge_invariant Context.default
    (.obj [("foo".toList, .str "http://e/".toList)]) []).2.1
    (by constructor <;> simp [Context.default])

theorem alGet_nil_key_none (m : List (Str × Str)) (h : ∀ kv ∈ m, kv.1 ≠ []) :
    alGet [] m = none := by
  induction m with
  | nil => rfl
  | cons kv rest ih =>
    obtain ⟨k, v⟩ := kv
    rw [alGet, if_neg (h (k, v) (by simp))]
    exact ih fun kv2 h2 => h kv2 (List.mem_cons_of_mem _ h2)

/-- C9: on a context built by merge operations from the default context, a
name that begins with `':'` expands to itself: the empty string can never be
registered as a CURIE prefix, so the empty-prefix lookup fails and the name
passes through as already absolute. -/
theorem C9_colon_name (c : Context) (rest : Str) (h : Reachable c) :
    c.expand_name (':' :: rest) = some (':' :: rest) := by
  have hinv := reachable_inv c h
  have hget : alGet [] c.prefixes = none :=
    alGet_nil_key_none c.prefixes fun kv hkv => (hinv.1 kv hkv).1
  rw [Context.expand_name, if_neg (by simp [is_keyword])]
  have hsplit : splitFirst (':' :: rest) = ([], some rest) := rfl
  rw [hsplit]
  simp only [hget]

/-- Witness for C9 at the default context. -/
theorem C9_witness : Context.default.expand_name ":x".toList = some ":x".toList :=
  C9_colon_name Context.default "x".toList Reachable.base

/-- Claim-side predicate (C10): a scalar value — string, number or boolean. -/
def isScalar : Value → Bool
  | .str _ => true
  | .num _ => true
  | .bool _ => true
  | _ => false

/-- Claim-side predicate (C10): a scalar, or an array containing only
scalars. -/
def scalarOnly : Value → Bool
  | .arr elems => elems.all isScalar
  | v => isScalar v

theorem foldl_scalar_noop (vs : List Value) (c : Context)
    (h : ∀ x ∈ vs, isScalar x = true) :
    vs.foldl (fun c v => match v with
      | .null => Context.default
      | .obj object => c.merge_object object
      | _ => c) c = c := by
  induction vs with
  | nil => rfl
  | cons v rest ih =>
    rw [List.foldl_cons]
    have hv := h v (by simp)
    have hrest : ∀ x ∈ rest, isScalar x = true :=
      fun x hx => h x (List.mem_cons_of_mem _ hx)
    cases v with
    | null => simp [isScalar] at hv
    | obj o2 => simp [isScalar] at hv
    | arr elems => simp [isScalar] at hv
    | str s => exact ih hrest
    | num n => exact ih hrest
    | bool b => exact ih hrest

/-- C10: merging a declaration that is a scalar (string, number, boolean)
or an array of scalars leaves the context completely unchanged — such
declarations are silently ignored. -/
theorem C10_scalar_merge_noop (c : Context) (v : Value) (h : scalarOnly v = true) :
    c.merge_value v = c := by
  rw [Context.merge_value]
  cases v with
  | arr elems =>
    simp only [oneOrMany]
    simp only [scalarOnly, List.all_eq_true] at h
    exact foldl_scalar_noop elems c h
  | null => simp [scalarOnly, isScalar] at h
  | obj o => simp [scalarOnly, isScalar] at h
  | str s => rfl
  | num n => rfl
  | bool b => rfl

/-- Context used by the C10 witness. -/
def c10ctx : Context :=
  ⟨some "http://ns/".toList, "en".toList, [("a".toList, "urn:a:".toList)], [], []⟩

/-- Witness for C10: an array of scalars merges to no change at all. -/
theorem C10_witness :
    c10ctx.merge_value (.arr [.str "x".toList, .num 3, .bool true]) = c10ctx :=
  C10_scalar_merge_noop c10ctx (.arr [.str "x".toList, .num 3, .bool true]) (by decide)

end JsonNS
